import Mathlib

/-!
# Verification of the ring-quantile estimator

Shallow embedding of `src/main.rs` (structs `QuantileEstimator` and
`TimeBasedRingBuffer`) together with proofs settling the specification
claims about them.

Embedding conventions:
* `u64` / `usize` values are modelled as `Nat`.  The only subtractions the
  source performs are guarded (`value - start` after the range check,
  `timestamp - timestamp % duration`, `len - 1` after a length test), so no
  wrap-around arithmetic is reachable in the states the theorems quantify
  over; counter overflow (`+= 1` past `2^64`) is not modelled.
* A Rust `panic!` (or an unavoidable arithmetic-overflow / index-out-of-bounds
  panic) is modelled as `none` in an `Option`-valued function.  Functions that
  return `Result<_, &str>` in the source are modelled as `Except String _`
  with the exact source strings.
* The `f64` fraction argument is modelled as `ℚ`.  Rust's `f64::round`
  (round half away from zero) is modelled by the executable `rustRound`, and
  the saturating `as usize` cast by `Int.toNat`.
* The `len - 1` fall-through with `len = 0` follows release-mode semantics
  (wrap, then the scan finds nothing); a debug build would panic there.  That
  state is unreachable from construction.
-/

/-! ## Definitions: shallow embedding of `src/main.rs`, trace execution,
invariants, and concrete states used by the claim theorems -/

deriving instance DecidableEq for Except

/-- Floor of a rational, written so that the kernel can evaluate it
(`Int.floor` on `ℚ` goes through the `FloorRing` class and does not reduce). -/
def ratFloor (q : ℚ) : ℤ := q.num / q.den

/-- Rust's `f64::round`: round to the nearest integer, halves away from zero. -/
def rustRound (q : ℚ) : ℤ :=
  if q < 0 then -ratFloor (-q + 1/2) else ratFloor (q + 1/2)

/-- Histogram over `[start, end]`: `quantiles[i]` counts observations equal to
`start + i`, `val_count` counts all observations.  Mirrors the Rust struct
`QuantileEstimator` (the Rust field `end` is spelled `end_`). -/
structure QuantileEstimator where
  val_count : Nat
  start : Nat
  end_ : Nat
  quantiles : List Nat
deriving DecidableEq, Repr

/-- The struct value `QuantileEstimator::new(start, end)` builds when it does
not panic: zero counters of length `end - start + 1` (here `end ≥ start`). -/
def QuantileEstimator.mkFresh (start end_ : Nat) : QuantileEstimator :=
  { val_count := 0, start := start, end_ := end_,
    quantiles := List.replicate (end_ - start + 1) 0 }

/-- Rust `QuantileEstimator::new(start, end)`.  When `end < start` the
expression `end - start` underflows `u64` (debug panic; in release the wrapped
length makes `vec!` abort on allocation), modelled as `none`. -/
def QuantileEstimator.new (start end_ : Nat) : Option QuantileEstimator :=
  if end_ < start then none
  else some (QuantileEstimator.mkFresh start end_)

/-- Rust `QuantileEstimator::add_value(value)`.  Out-of-range values hit
`panic!("Value out of range")`, modelled as `none`; the (unreachable for
well-formed states) indexing panic is also `none`. -/
def QuantileEstimator.add_value (q : QuantileEstimator) (value : Nat) :
    Option QuantileEstimator :=
  if value < q.start ∨ value > q.end_ then none
  else
    let idx := value - q.start
    if h : idx < q.quantiles.length then
      some { q with
        val_count := q.val_count + 1,
        quantiles := q.quantiles.set idx (q.quantiles.get ⟨idx, h⟩ + 1) }
    else none

/-- The cumulative-count scan shared verbatim by both `estimate_quantile`
loops in the source: walk the counters accumulating `cum`, returning the first
position `i` with `cum > index`. -/
def scanQuantiles : List Nat → Nat → Nat → Nat → Option Nat
  | [], _, _, _ => none
  | count :: rest, index, i, cum =>
    if cum + count > index then some i
    else scanQuantiles rest index (i + 1) (cum + count)

/-- The rank computation shared verbatim by both `estimate_quantile` bodies
in the source: `let mut index = (fraction * total as f64 - 1.0).round() as
usize; if index >= len { index = len - 1 }`. -/
def quantileIndex (fraction : ℚ) (total len : Nat) : Nat :=
  if (rustRound (fraction * (total : ℚ) - 1)).toNat ≥ len then len - 1
  else (rustRound (fraction * (total : ℚ) - 1)).toNat

/-- Rust `QuantileEstimator::estimate_quantile(fraction)`. -/
def QuantileEstimator.estimate_quantile (q : QuantileEstimator) (fraction : ℚ) :
    Except String Nat :=
  if fraction < 0 ∨ fraction > 1 then
    Except.error "Fraction must be between 0 and 1"
  else if q.val_count = 0 then
    Except.error "No values added to the estimator"
  else
    match scanQuantiles q.quantiles
        (quantileIndex fraction q.val_count q.quantiles.length) 0 0 with
    | some i => Except.ok (q.start + i)
    | none => Except.error "No quantile found for the given fraction"

/-- Mirrors the Rust struct `TimeBasedRingBuffer`: a fixed number of
histogram windows, the active index, and the active window's start time. -/
structure TimeBasedRingBuffer where
  capacity : Nat
  duration : Nat
  windows : List QuantileEstimator
  current : Nat
  start : Nat
  end_ : Nat
  current_window_start : Nat
  current_window_initialized : Bool
deriving DecidableEq, Repr

/-- Rust `TimeBasedRingBuffer::new(capacity, duration, start, end)`: pushes
`capacity` fresh estimators.  When `capacity ≥ 1` and `end < start` the first
`QuantileEstimator::new` call panics (modelled `none`); no other validation
happens — `capacity == 0` and `duration == 0` are accepted. -/
def TimeBasedRingBuffer.new (capacity duration start end_ : Nat) :
    Option TimeBasedRingBuffer :=
  if capacity ≠ 0 ∧ end_ < start then none
  else some
    { capacity := capacity, duration := duration,
      windows := List.replicate capacity (QuantileEstimator.mkFresh start end_),
      current := 0, start := start, end_ := end_,
      current_window_start := 0, current_window_initialized := false }

/-- The window-advance `while` loop of `TimeBasedRingBuffer::insert`:
`while timestamp > current_window_start + duration { current = (current + 1)
% capacity; windows[current] = QuantileEstimator::new(start, end);
current_window_start += max(timestamp, duration) }`.  Returns the final
`current`, `current_window_start` and windows; `none` models the panics
(`% 0`, a panicking `QuantileEstimator::new`, or indexing out of bounds). -/
def advanceLoop (capacity duration start end_ current ws : Nat)
    (windows : List QuantileEstimator) (timestamp : Nat) :
    Option (Nat × Nat × List QuantileEstimator) :=
  if _h : timestamp > ws + duration then
    if capacity = 0 then none
    else
      match QuantileEstimator.new start end_ with
      | none => none
      | some fresh =>
        if (current + 1) % capacity < windows.length then
          advanceLoop capacity duration start end_ ((current + 1) % capacity)
            (ws + max timestamp duration)
            (windows.set ((current + 1) % capacity) fresh) timestamp
        else none
  else some (current, ws, windows)
termination_by timestamp - ws
decreasing_by
  have := Nat.le_max_left timestamp duration
  omega

/-- The window-start value `insert` works with: the stored one, or the
floor-aligned baseline `timestamp - timestamp % duration` that the first
insert establishes. -/
def TimeBasedRingBuffer.initWindowStart (b : TimeBasedRingBuffer)
    (timestamp : Nat) : Nat :=
  if b.current_window_initialized = false then timestamp - timestamp % b.duration
  else b.current_window_start

/-- Rust `TimeBasedRingBuffer::insert(value, timestamp)`.  `none` models the
panics: `duration == 0` on the first insert, the loop panics, indexing out of
bounds, and `add_value`'s out-of-range panic. -/
def TimeBasedRingBuffer.insert (b : TimeBasedRingBuffer) (value timestamp : Nat) :
    Option TimeBasedRingBuffer :=
  if b.current_window_initialized = false ∧ b.duration = 0 then none
  else
    match advanceLoop b.capacity b.duration b.start b.end_ b.current
        (b.initWindowStart timestamp) b.windows timestamp with
    | none => none
    | some (cur2, ws2, windows2) =>
      if h : cur2 < windows2.length then
        match (windows2.get ⟨cur2, h⟩).add_value value with
        | none => none
        | some w2 => some
          { b with
            current := cur2, current_window_start := ws2,
            current_window_initialized := true,
            windows := windows2.set cur2 w2 }
      else none

/-- The inner statement `combined_quantiles[i] += count` iterated over one
window's counters: adds `counts` pointwise onto a prefix of `acc`, `none`
modelling the index panic when `counts` is longer than `acc`. -/
def addCountsInto : List Nat → List Nat → Option (List Nat)
  | acc, [] => some acc
  | [], _ :: _ => none
  | a :: acc, c :: cs => (addCountsInto acc cs).map (fun out => (a + c) :: out)

/-- The merge loop of `TimeBasedRingBuffer::estimate_quantile`: fold
`addCountsInto` over all windows. -/
def combineWindows (acc : List Nat) : List QuantileEstimator → Option (List Nat)
  | [] => some acc
  | w :: ws =>
    match addCountsInto acc w.quantiles with
    | none => none
    | some acc2 => combineWindows acc2 ws

/-- Rust `TimeBasedRingBuffer::estimate_quantile(fraction)`.  The outer
`Option` models the panics reachable only from malformed states (`end <
start` underflow building the combined vector, or a window longer than it);
`some` carries the `Result` the source returns. -/
def TimeBasedRingBuffer.estimate_quantile (b : TimeBasedRingBuffer)
    (fraction : ℚ) : Option (Except String Nat) :=
  if fraction < 0 ∨ fraction > 1 then
    some (Except.error "Fraction must be between 0 and 1")
  else if b.windows.isEmpty then
    some (Except.error "No windows available in the ring buffer")
  else
    if (b.windows.map QuantileEstimator.val_count).sum = 0 then
      some (Except.error "No values added to any window")
    else if b.end_ < b.start then none
    else
      match combineWindows (List.replicate (b.end_ - b.start + 1) 0) b.windows with
      | none => none
      | some combined =>
        match scanQuantiles combined
            (quantileIndex fraction
              ((b.windows.map QuantileEstimator.val_count).sum)
              combined.length) 0 0 with
        | some i => some (Except.ok (b.start + i))
        | none => some (Except.error "No quantile found for the given fraction")

/-- Run a sequence of `(value, timestamp)` inserts, stopping at the first
panic. -/
def insertTrace (b : TimeBasedRingBuffer) :
    List (Nat × Nat) → Option TimeBasedRingBuffer
  | [] => some b
  | (v, t) :: rest =>
    match b.insert v t with
    | none => none
    | some b2 => insertTrace b2 rest

/-- Run a sequence of plain `add_value` inserts on one histogram, stopping at
the first panic. -/
def addValues (q : QuantileEstimator) : List Nat → Option QuantileEstimator
  | [] => some q
  | v :: rest =>
    match q.add_value v with
    | none => none
    | some q2 => addValues q2 rest

/-- Companion of `advanceLoop` that records whether every window slot the
loop resets is empty at the moment it is overwritten.  `true` means this
advance run discards no data (no eviction of live data). -/
def advanceLoopNoEvict (capacity duration start end_ current ws : Nat)
    (windows : List QuantileEstimator) (timestamp : Nat) : Bool :=
  if _h : timestamp > ws + duration then
    ((windows.getD ((current + 1) % capacity)
        (QuantileEstimator.mkFresh start end_)).val_count == 0)
      && advanceLoopNoEvict capacity duration start end_
          ((current + 1) % capacity) (ws + max timestamp duration)
          (windows.set ((current + 1) % capacity)
            (QuantileEstimator.mkFresh start end_)) timestamp
  else true
termination_by timestamp - ws
decreasing_by
  have := Nat.le_max_left timestamp duration
  omega

/-- Does `insert` at this timestamp avoid discarding data?  Mirrors the
window-start initialisation of `insert` and then asks `advanceLoopNoEvict`. -/
def TimeBasedRingBuffer.noEvictInsert (b : TimeBasedRingBuffer)
    (timestamp : Nat) : Bool :=
  advanceLoopNoEvict b.capacity b.duration b.start b.end_ b.current
    (b.initWindowStart timestamp) b.windows timestamp

/-- A whole insert trace discards no data. -/
def noEvictTrace (b : TimeBasedRingBuffer) : List (Nat × Nat) → Bool
  | [] => true
  | (v, t) :: rest =>
    b.noEvictInsert t &&
      match b.insert v t with
      | none => false
      | some b2 => noEvictTrace b2 rest

/-- The list of window slots the advance loop steps through (and resets),
in order.  Mirrors the recursion of `advanceLoop`. -/
def advancedIndices (capacity duration current ws timestamp : Nat) : List Nat :=
  if _h : timestamp > ws + duration then
    ((current + 1) % capacity) ::
      advancedIndices capacity duration ((current + 1) % capacity)
        (ws + max timestamp duration) timestamp
  else []
termination_by timestamp - ws
decreasing_by
  have := Nat.le_max_left timestamp duration
  omega

/-- Pointwise sum, across all windows, of the counter at offset `j`. -/
def sumAt (ws : List QuantileEstimator) (j : Nat) : Nat :=
  (ws.map (fun w => w.quantiles.getD j 0)).sum

/-- Total observation count across all windows, as the source computes it. -/
def totalVal (ws : List QuantileEstimator) : Nat :=
  (ws.map QuantileEstimator.val_count).sum

/-- Per-window well-formedness for range `[s, e]`: correct bounds, counter
array of the right length, and total equal to the sum of the counters. -/
def WInv (s e : Nat) (w : QuantileEstimator) : Prop :=
  w.start = s ∧ w.end_ = e ∧ w.quantiles.length = e - s + 1 ∧
    w.val_count = w.quantiles.sum

/-- Ring-buffer well-formedness: consistent fields, a valid active index,
and well-formed windows.  Every state `TimeBasedRingBuffer::new` builds with
`capacity ≥ 1` satisfies it, and `insert` preserves it. -/
def RInv (s e c d : Nat) (b : TimeBasedRingBuffer) : Prop :=
  b.start = s ∧ b.end_ = e ∧ b.capacity = c ∧ b.duration = d ∧
    b.windows.length = c ∧ b.current < c ∧ s ≤ e ∧ 0 < c ∧
    ∀ w ∈ b.windows, WInv s e w

/-- Ring buffer `new(3, 10, 0, 5)`. -/
def rbSkip0 : TimeBasedRingBuffer :=
  ⟨3, 10, [QuantileEstimator.mkFresh 0 5, QuantileEstimator.mkFresh 0 5,
    QuantileEstimator.mkFresh 0 5], 0, 0, 5, 0, false⟩

/-- `rbSkip0` after `insert(1, 0)`. -/
def rbSkip1 : TimeBasedRingBuffer :=
  ⟨3, 10, [⟨1, 0, 5, [0, 1, 0, 0, 0, 0]⟩, QuantileEstimator.mkFresh 0 5,
    QuantileEstimator.mkFresh 0 5], 0, 0, 5, 0, true⟩

/-- `rbSkip1` after `insert(2, 25)`: the loop ran once, advancing
`current_window_start` by `max(25, 10) = 25`. -/
def rbSkip2 : TimeBasedRingBuffer :=
  ⟨3, 10, [⟨1, 0, 5, [0, 1, 0, 0, 0, 0]⟩, ⟨1, 0, 5, [0, 0, 1, 0, 0, 0]⟩,
    QuantileEstimator.mkFresh 0 5], 1, 0, 5, 25, true⟩

/-- `rbSkip1` after `insert(3, 10)`: the boundary timestamp does not advance
(`10 > 0 + 10` is false). -/
def rbSkip1b : TimeBasedRingBuffer :=
  ⟨3, 10, [⟨2, 0, 5, [0, 1, 0, 1, 0, 0]⟩, QuantileEstimator.mkFresh 0 5,
    QuantileEstimator.mkFresh 0 5], 0, 0, 5, 0, true⟩

/-- Capacity-1 ring buffer `new(1, 10, 0, 5)`. -/
def rbEvict0 : TimeBasedRingBuffer :=
  ⟨1, 10, [QuantileEstimator.mkFresh 0 5], 0, 0, 5, 0, false⟩

/-- `rbEvict0` after `insert(1, 5)` (window start aligned to `0`). -/
def rbEvict1 : TimeBasedRingBuffer :=
  ⟨1, 10, [⟨1, 0, 5, [0, 1, 0, 0, 0, 0]⟩], 0, 0, 5, 0, true⟩

/-- `rbEvict1` after `insert(2, 11)`: the advance wraps to slot 0,
discarding the observation of value `1`. -/
def rbEvict2 : TimeBasedRingBuffer :=
  ⟨1, 10, [⟨1, 0, 5, [0, 0, 1, 0, 0, 0]⟩], 0, 0, 5, 11, true⟩

/-- Capacity-2 ring buffer `new(2, 10, 0, 3)` for the merge witness. -/
def rbW0 : TimeBasedRingBuffer :=
  ⟨2, 10, [QuantileEstimator.mkFresh 0 3, QuantileEstimator.mkFresh 0 3],
    0, 0, 3, 0, false⟩

/-- `rbW0` after `insert(1, 0)`. -/
def rbW1 : TimeBasedRingBuffer :=
  ⟨2, 10, [⟨1, 0, 3, [0, 1, 0, 0]⟩, QuantileEstimator.mkFresh 0 3],
    0, 0, 3, 0, true⟩

/-- `rbW1` after `insert(2, 3)`. -/
def rbW2 : TimeBasedRingBuffer :=
  ⟨2, 10, [⟨2, 0, 3, [0, 1, 1, 0]⟩, QuantileEstimator.mkFresh 0 3],
    0, 0, 3, 0, true⟩

/-- The histogram with more observations (`11`) than buckets (`2`) that
exposes the rank clamp: counts `[10, 1]` over the domain `[0, 1]`. -/
def histTL : QuantileEstimator := ⟨11, 0, 1, [10, 1]⟩

/-- Modelled from the spec: the rank of claim C3, `round(fraction * total -
1)` clamped into `[0, total - 1]` (the lower clamp is the saturating
float-to-usize cast).  The code instead clamps at `counts.len() - 1`. -/
def specRank (fraction : ℚ) (total : Nat) : Nat :=
  min ((rustRound (fraction * (total : ℚ) - 1)).toNat) (total - 1)

/-- Histogram used by the monotonicity and scan witnesses. -/
def histMono : QuantileEstimator := ⟨2, 0, 3, [1, 0, 0, 1]⟩

/-- Single-window well-formed ring buffer for the merge-scan witness. -/
def rbQ7 : TimeBasedRingBuffer :=
  ⟨1, 10, [⟨1, 0, 3, [1, 0, 0, 0]⟩], 0, 0, 3, 5, true⟩

/-! ## Theorems -/

/-- Mathlib's `Int.floor` agrees with the executable `ratFloor`. -/
theorem ratFloor_eq_floor (q : ℚ) : ratFloor q = ⌊q⌋ := Rat.floor_def.symm

/-- For nonnegative arguments Rust rounding is floor of `q + 1/2`. -/
theorem rustRound_of_nonneg {q : ℚ} (h : 0 ≤ q) : rustRound q = ⌊q + 1/2⌋ := by
  rw [rustRound, if_neg (not_lt.mpr h), ratFloor_eq_floor]

/-- For negative arguments Rust rounding gives a nonpositive integer. -/
theorem rustRound_nonpos {q : ℚ} (h : q < 0) : rustRound q ≤ 0 := by
  rw [rustRound, if_pos h, ratFloor_eq_floor]
  have h2 : (0 : ℤ) ≤ ⌊-q + 1/2⌋ := by
    rw [Int.le_floor]
    have : (0 : ℚ) ≤ -q := by linarith
    push_cast
    linarith
  omega

/-- Rust rounding of an integer is that integer. -/
theorem rustRound_intCast (n : ℤ) : rustRound (n : ℚ) = n := by
  have hhalf : ⌊(1 / 2 : ℚ)⌋ = 0 := by
    rw [Int.floor_eq_zero_iff]
    constructor <;> norm_num
  rcases lt_or_le (n : ℚ) 0 with h | h
  · rw [rustRound, if_pos h, ratFloor_eq_floor]
    rw [show (-(n : ℚ) + 1/2) = ((-n : ℤ) : ℚ) + 1/2 by push_cast; ring]
    rw [Int.floor_int_add, hhalf]
    omega
  · rw [rustRound_of_nonneg h, add_comm, Int.floor_add_int, hhalf]
    omega

/-- Rust rounding is monotone. -/
theorem rustRound_mono {q1 q2 : ℚ} (h : q1 ≤ q2) : rustRound q1 ≤ rustRound q2 := by
  rcases lt_or_le q1 0 with h1 | h1
  · rcases lt_or_le q2 0 with h2 | h2
    · rw [rustRound, if_pos h1, rustRound, if_pos h2, ratFloor_eq_floor,
        ratFloor_eq_floor]
      have : ⌊-q2 + 1/2⌋ ≤ ⌊-q1 + 1/2⌋ := Int.floor_le_floor (by linarith)
      omega
    · have ha := rustRound_nonpos h1
      have hb : (0 : ℤ) ≤ rustRound q2 := by
        rw [rustRound_of_nonneg h2]
        have : (0 : ℚ) ≤ q2 + 1/2 := by linarith
        exact Int.floor_nonneg.mpr this
      omega
  · rw [rustRound_of_nonneg h1, rustRound_of_nonneg (le_trans h1 h)]
    exact Int.floor_le_floor (by linarith)

/-- The claimed rank `fraction * total - 1`, rounded, never exceeds
`total - 1` when `fraction ≤ 1`. -/
theorem rustRound_rank_le {f : ℚ} {t : Nat} (hf : f ≤ 1) (ht : 1 ≤ t) :
    (rustRound (f * (t : ℚ) - 1)).toNat ≤ t - 1 := by
  have hb : rustRound (f * (t : ℚ) - 1) ≤ ((t : ℤ) - 1 : ℤ) := by
    have hle : f * (t : ℚ) - 1 ≤ ((t : ℤ) - 1 : ℤ) := by
      have : f * (t : ℚ) ≤ (t : ℚ) :=
        mul_le_of_le_one_left (by positivity) hf
      push_cast
      linarith
    calc rustRound (f * (t : ℚ) - 1) ≤ rustRound (((t : ℤ) - 1 : ℤ) : ℚ) :=
          rustRound_mono hle
      _ = (t : ℤ) - 1 := rustRound_intCast _
  omega

/-- `quantileIndex 0 total len = 0`: fraction `0` always targets rank `0`. -/
theorem quantileIndex_zero (t len : Nat) : quantileIndex 0 t len = 0 := by
  have h1 : rustRound ((0 : ℚ) * (t : ℚ) - 1) = -1 := by
    rw [show (0 : ℚ) * (t : ℚ) - 1 = ((-1 : ℤ) : ℚ) by push_cast; ring]
    exact rustRound_intCast _
  unfold quantileIndex
  rw [h1]
  have h2 : ((-1 : ℤ)).toNat = 0 := rfl
  rw [h2]
  split <;> omega

/-- `quantileIndex 1 total len = min (total - 1) (len - 1)` when `total ≥ 1`. -/
theorem quantileIndex_one {t : Nat} (ht : 1 ≤ t) (len : Nat) :
    quantileIndex 1 t len = min (t - 1) (len - 1) := by
  have h1 : rustRound ((1 : ℚ) * (t : ℚ) - 1) = (t : ℤ) - 1 := by
    rw [show (1 : ℚ) * (t : ℚ) - 1 = (((t : ℤ) - 1 : ℤ) : ℚ) by push_cast; ring]
    exact rustRound_intCast _
  unfold quantileIndex
  rw [h1]
  have h2 : ((t : ℤ) - 1).toNat = t - 1 := by omega
  rw [h2]
  split <;> omega

/-- The computed rank is monotone in the fraction. -/
theorem quantileIndex_mono {f1 f2 : ℚ} (h : f1 ≤ f2) (t len : Nat) :
    quantileIndex f1 t len ≤ quantileIndex f2 t len := by
  unfold quantileIndex
  have hr : rustRound (f1 * (t : ℚ) - 1) ≤ rustRound (f2 * (t : ℚ) - 1) := by
    apply rustRound_mono
    have : f1 * (t : ℚ) ≤ f2 * (t : ℚ) :=
      mul_le_mul_of_nonneg_right h (by positivity)
    linarith
  have htn : (rustRound (f1 * (t : ℚ) - 1)).toNat ≤
      (rustRound (f2 * (t : ℚ) - 1)).toNat := by omega
  split <;> split <;> omega

/-- The computed rank stays below `total` when `fraction ≤ 1 ≤ total`. -/
theorem quantileIndex_lt_total {f : ℚ} {t : Nat} (hf : f ≤ 1) (ht : 1 ≤ t)
    (len : Nat) : quantileIndex f t len < t := by
  have hb := rustRound_rank_le hf ht
  unfold quantileIndex
  split <;> omega

/-- A successful scan returns the first position whose cumulative count
exceeds the rank: characterisation of `scanQuantiles` in terms of prefix
sums. -/
theorem scanQuantiles_some_spec : ∀ (l : List Nat) (idx i cum r : Nat),
    scanQuantiles l idx i cum = some r →
    ∃ j, r = i + j ∧ j < l.length ∧ cum + (l.take (j + 1)).sum > idx ∧
      ∀ k < j, cum + (l.take (k + 1)).sum ≤ idx
  | [], idx, i, cum, r => by intro h; simp [scanQuantiles] at h
  | c :: rest, idx, i, cum, r => by
    intro h
    rw [scanQuantiles] at h
    by_cases hc : cum + c > idx
    · rw [if_pos hc] at h
      have hr := Option.some.inj h
      refine ⟨0, by omega, by simp, by simpa using hc, by omega⟩
    · rw [if_neg hc] at h
      obtain ⟨j, hj1, hj2, hj3, hj4⟩ :=
        scanQuantiles_some_spec rest idx (i + 1) (cum + c) r h
      refine ⟨j + 1, by omega, by simpa using hj2,
        by simpa [List.take_succ_cons, add_assoc] using hj3, ?_⟩
      intro k hk
      rcases Nat.eq_zero_or_pos k with hk0 | hk0
      · subst hk0; simpa using hc
      · obtain ⟨k2, rfl⟩ := Nat.exists_eq_add_of_le hk0
        have h5 := hj4 k2 (by omega)
        have hconv : 1 + k2 + 1 = k2 + 1 + 1 := by omega
        rw [hconv, List.take_succ_cons, List.sum_cons]
        omega

/-- The scan succeeds whenever the rank lies below the remaining total,
provided the running sum has not yet passed the rank. -/
theorem scanQuantiles_isSome : ∀ (l : List Nat) (idx i cum : Nat),
    cum ≤ idx → idx < cum + l.sum → ∃ r, scanQuantiles l idx i cum = some r
  | [], idx, i, cum => by intro h1 h2; simp at h2; omega
  | c :: rest, idx, i, cum => by
    intro h1 h2
    rw [scanQuantiles]
    by_cases hc : cum + c > idx
    · exact ⟨i, if_pos hc⟩
    · rw [if_neg hc]
      exact scanQuantiles_isSome rest idx (i + 1) (cum + c) (by omega)
        (by simp at h2; omega)

/-- A larger rank can only move the scan result to the right. -/
theorem scanQuantiles_mono {l : List Nat} {idx1 idx2 r1 r2 : Nat}
    (h : idx1 ≤ idx2) (h1 : scanQuantiles l idx1 0 0 = some r1)
    (h2 : scanQuantiles l idx2 0 0 = some r2) : r1 ≤ r2 := by
  obtain ⟨j1, hj1, _, hj13, hj14⟩ := scanQuantiles_some_spec l idx1 0 0 r1 h1
  obtain ⟨j2, hj2, _, hj23, hj24⟩ := scanQuantiles_some_spec l idx2 0 0 r2 h2
  by_contra hlt
  have hj : j2 < j1 := by omega
  have ha := hj14 j2 hj
  omega

/-- The advance loop never runs a second iteration: after one step the new
window start `ws + max timestamp duration` is at least `timestamp` (this is
the `+= max(timestamp, duration)` drift the spec flags), so the loop
condition immediately fails again. -/
theorem advanceLoop_eq_step (capacity duration start end_ current ws : Nat)
    (windows : List QuantileEstimator) (timestamp : Nat) :
    advanceLoop capacity duration start end_ current ws windows timestamp =
      if timestamp > ws + duration then
        if capacity = 0 then none
        else
          match QuantileEstimator.new start end_ with
          | none => none
          | some fresh =>
            if (current + 1) % capacity < windows.length then
              some ((current + 1) % capacity, ws + max timestamp duration,
                windows.set ((current + 1) % capacity) fresh)
            else none
      else some (current, ws, windows) := by
  rw [advanceLoop]
  by_cases h : timestamp > ws + duration
  · rw [dif_pos h, if_pos h]
    by_cases hc : capacity = 0
    · rw [if_pos hc, if_pos hc]
    · rw [if_neg hc, if_neg hc]
      cases hn : QuantileEstimator.new start end_ with
      | none => rfl
      | some fresh =>
        dsimp only
        by_cases hl : (current + 1) % capacity < windows.length
        · rw [if_pos hl, if_pos hl, advanceLoop]
          have hmax := Nat.le_max_left timestamp duration
          rw [dif_neg (by omega)]
        · rw [if_neg hl, if_neg hl]
  · rw [dif_neg h, if_neg h]

/-- Closed form of `advanceLoopNoEvict` (the loop runs at most once). -/
theorem advanceLoopNoEvict_eq_step (capacity duration start end_ current ws : Nat)
    (windows : List QuantileEstimator) (timestamp : Nat) :
    advanceLoopNoEvict capacity duration start end_ current ws windows timestamp =
      if timestamp > ws + duration then
        (windows.getD ((current + 1) % capacity)
          (QuantileEstimator.mkFresh start end_)).val_count == 0
      else true := by
  rw [advanceLoopNoEvict]
  by_cases h : timestamp > ws + duration
  · rw [dif_pos h, if_pos h, advanceLoopNoEvict]
    have hmax := Nat.le_max_left timestamp duration
    rw [dif_neg (by omega), Bool.and_true]
  · rw [dif_neg h, if_neg h]

/-- Closed form of `advancedIndices` (the loop runs at most once). -/
theorem advancedIndices_eq_step (capacity duration current ws timestamp : Nat) :
    advancedIndices capacity duration current ws timestamp =
      if timestamp > ws + duration then [(current + 1) % capacity] else [] := by
  rw [advancedIndices]
  by_cases h : timestamp > ws + duration
  · rw [dif_pos h, if_pos h, advancedIndices]
    have hmax := Nat.le_max_left timestamp duration
    rw [dif_neg (by omega)]
  · rw [dif_neg h, if_neg h]

/-- Reading back the slot just written. -/
theorem getD_set_same {α : Type} (l : List α) (i : Nat) (a d : α)
    (h : i < l.length) : (l.set i a).getD i d = a := by
  induction l generalizing i with
  | nil => simp at h
  | cons x xs ih =>
    cases i with
    | zero => rfl
    | succ i2 => simpa using ih i2 (by simpa using h)

/-- Writing one slot leaves every other slot unchanged. -/
theorem getD_set_other {α : Type} (l : List α) (i j : Nat) (a d : α)
    (h : i ≠ j) : (l.set i a).getD j d = l.getD j d := by
  induction l generalizing i j with
  | nil => rfl
  | cons x xs ih =>
    cases i with
    | zero => cases j with
      | zero => omega
      | succ j2 => rfl
    | succ i2 => cases j with
      | zero => rfl
      | succ j2 => simpa using ih i2 j2 (by omega)

/-- Writing back the value already present is a no-op. -/
theorem set_getD_self {α : Type} (l : List α) (i : Nat) (d : α)
    (h : i < l.length) : l.set i (l.getD i d) = l := by
  induction l generalizing i with
  | nil => rfl
  | cons x xs ih =>
    cases i with
    | zero => rfl
    | succ i2 => simpa using ih i2 (by simpa using h)

/-- Sum of a list after overwriting one entry. -/
theorem sum_set_getD (l : List Nat) (i x : Nat) (h : i < l.length) :
    (l.set i x).sum + l.getD i 0 = l.sum + x := by
  induction l generalizing i with
  | nil => simp at h
  | cons a xs ih =>
    cases i with
    | zero => simp [List.set]; omega
    | succ i2 =>
      have := ih i2 (by simpa using h)
      simp only [List.set, List.sum_cons, List.getD_cons_succ]
      omega

/-- Sum of `f` over a list after overwriting one element. -/
theorem sum_map_set (f : QuantileEstimator → Nat) (ws : List QuantileEstimator)
    (i : Nat) (w2 : QuantileEstimator) (h : i < ws.length) :
    ((ws.set i w2).map f).sum + f (ws.get ⟨i, h⟩) = (ws.map f).sum + f w2 := by
  induction ws generalizing i with
  | nil => simp at h
  | cons x xs ih =>
    cases i with
    | zero => simp [List.set]; omega
    | succ i2 =>
      have := ih i2 (by simpa using h)
      simp only [List.set, List.map_cons, List.sum_cons, List.get_cons_succ]
      omega

/-- `getD` of an all-zero list is zero. -/
theorem getD_replicate_zero (n j : Nat) :
    (List.replicate n (0 : Nat)).getD j 0 = 0 := by
  induction n generalizing j with
  | zero => rfl
  | succ n2 ih =>
    cases j with
    | zero => rfl
    | succ j2 => exact ih j2

/-- What `addCountsInto` produces when the window fits into the accumulator:
pointwise sums, same length, summed totals. -/
theorem addCountsInto_spec : ∀ (cs acc : List Nat), cs.length ≤ acc.length →
    ∃ out, addCountsInto acc cs = some out ∧ out.length = acc.length ∧
      (∀ j, out.getD j 0 = acc.getD j 0 + cs.getD j 0) ∧
      out.sum = acc.sum + cs.sum
  | [], acc => by
    intro _
    refine ⟨acc, by cases acc <;> rfl, rfl, ?_, by cases acc <;> simp⟩
    intro j
    simp
  | c :: cs, [] => by intro h; simp at h
  | c :: cs, a :: acc => by
    intro h
    obtain ⟨out, h1, h2, h3, h4⟩ := addCountsInto_spec cs acc (by simpa using h)
    refine ⟨(a + c) :: out, ?_, by simpa using h2, ?_, by simp [h4]; omega⟩
    · show (addCountsInto acc cs).map (fun out => (a + c) :: out) = _
      rw [h1]
      rfl
    · intro j
      cases j with
      | zero => rfl
      | succ j2 => simpa using h3 j2

/-- What the merge loop produces when every window fits: pointwise sums of
all windows on top of the accumulator. -/
theorem combineWindows_spec : ∀ (ws : List QuantileEstimator) (acc : List Nat),
    (∀ w ∈ ws, w.quantiles.length ≤ acc.length) →
    ∃ out, combineWindows acc ws = some out ∧ out.length = acc.length ∧
      (∀ j, out.getD j 0 = acc.getD j 0 + sumAt ws j) ∧
      out.sum = acc.sum + (ws.map (fun w => w.quantiles.sum)).sum
  | [], acc => by
    intro _
    exact ⟨acc, rfl, rfl, by simp [sumAt], by simp⟩
  | w :: ws, acc => by
    intro h
    obtain ⟨mid, h1, h2, h3, h4⟩ :=
      addCountsInto_spec w.quantiles acc (h w (by simp))
    obtain ⟨out, g1, g2, g3, g4⟩ := combineWindows_spec ws mid
      (by intro w2 hw2; rw [h2]; exact h w2 (by simp [hw2]))
    refine ⟨out, ?_, by omega, ?_, by rw [g4, h4]; simp; omega⟩
    · show (match addCountsInto acc w.quantiles with
        | none => none
        | some acc2 => combineWindows acc2 ws) = some out
      rw [h1]
      exact g1
    · intro j
      rw [g3 j, h3 j]
      simp only [sumAt, List.map_cons, List.sum_cons]
      omega

/-- A fresh histogram is well-formed. -/
theorem WInv_mkFresh (s e : Nat) :
    WInv s e (QuantileEstimator.mkFresh s e) := by
  refine ⟨rfl, rfl, by simp [QuantileEstimator.mkFresh], ?_⟩
  simp [QuantileEstimator.mkFresh, List.sum_replicate]

/-- `add_value` preserves per-window well-formedness. -/
theorem WInv_add_value {s e : Nat} {w w2 : QuantileEstimator} {v : Nat}
    (hw : WInv s e w) (h : w.add_value v = some w2) : WInv s e w2 := by
  obtain ⟨h1, h2, h3, h4⟩ := hw
  rw [QuantileEstimator.add_value] at h
  by_cases hr : v < w.start ∨ v > w.end_
  · rw [if_pos hr] at h
    exact absurd h (by simp)
  · rw [if_neg hr] at h
    by_cases hi : v - w.start < w.quantiles.length
    · rw [dif_pos hi] at h
      obtain rfl : _ = w2 := Option.some.inj h
      refine ⟨h1, h2, by simpa using h3, ?_⟩
      show w.val_count + 1 =
        (w.quantiles.set (v - w.start) (w.quantiles.get ⟨v - w.start, hi⟩ + 1)).sum
      have hs := sum_set_getD w.quantiles (v - w.start)
        (w.quantiles.get ⟨v - w.start, hi⟩ + 1) hi
      have hg : w.quantiles.getD (v - w.start) 0 =
          w.quantiles.get ⟨v - w.start, hi⟩ := by
        rw [List.getD_eq_getElem?_getD, List.getElem?_eq_getElem hi]
        rfl
      rw [hg] at hs
      omega
    · rw [dif_neg hi] at h
      exact absurd h (by simp)

/-- The value stored by a successful `add_value`: one more observation, and
the counter at `value - start` bumped by one. -/
theorem add_value_spec {w w2 : QuantileEstimator} {v : Nat}
    (h : w.add_value v = some w2) :
    w.start ≤ v ∧ v ≤ w.end_ ∧ v - w.start < w.quantiles.length ∧
      w2.start = w.start ∧ w2.end_ = w.end_ ∧
      w2.val_count = w.val_count + 1 ∧
      w2.quantiles.length = w.quantiles.length ∧
      (∀ j, w2.quantiles.getD j 0 =
        w.quantiles.getD j 0 + (if j = v - w.start then 1 else 0)) := by
  rw [QuantileEstimator.add_value] at h
  by_cases hr : v < w.start ∨ v > w.end_
  · rw [if_pos hr] at h
    exact absurd h (by simp)
  · rw [if_neg hr] at h
    by_cases hi : v - w.start < w.quantiles.length
    · rw [dif_pos hi] at h
      obtain rfl : _ = w2 := Option.some.inj h
      push_neg at hr
      refine ⟨hr.1, hr.2, hi, rfl, rfl, rfl, by simp, ?_⟩
      intro j
      have hg : w.quantiles.getD (v - w.start) 0 =
          w.quantiles.get ⟨v - w.start, hi⟩ := by
        rw [List.getD_eq_getElem?_getD, List.getElem?_eq_getElem hi]
        rfl
      by_cases hj : j = v - w.start
      · rw [hj, if_pos rfl]
        show (w.quantiles.set (v - w.start)
          (w.quantiles.get ⟨v - w.start, hi⟩ + 1)).getD (v - w.start) 0 = _
        rw [getD_set_same _ _ _ _ hi, hg]
      · rw [if_neg hj]
        show (w.quantiles.set (v - w.start) _).getD j 0 = _
        rw [getD_set_other _ _ _ _ _ (fun hc => hj hc.symm)]
        omega
    · rw [dif_neg hi] at h
      exact absurd h (by simp)

/-- A list element read with `getD` inside the bounds. -/
theorem getElem_eq_getD (l : List Nat) (n : Nat) (h : n < l.length) :
    l.get ⟨n, h⟩ = l.getD n 0 := by
  rw [List.getD_eq_getElem?_getD, List.getElem?_eq_getElem h]
  rfl

/-- If one histogram's counters are exactly the pointwise sums of the ring
buffer's windows (and its total their summed totals), the ring buffer's
quantile query returns exactly what the histogram's query returns. -/
theorem estimate_merge (b : TimeBasedRingBuffer) (hq : QuantileEstimator) (f : ℚ)
    (hse : b.start ≤ b.end_)
    (hne : b.windows ≠ [])
    (hwlen : ∀ w ∈ b.windows, w.quantiles.length ≤ b.end_ - b.start + 1)
    (hstart : hq.start = b.start)
    (hlen : hq.quantiles.length = b.end_ - b.start + 1)
    (hpt : ∀ j, hq.quantiles.getD j 0 = sumAt b.windows j)
    (hval : hq.val_count = totalVal b.windows)
    (hval1 : totalVal b.windows ≠ 0) :
    b.estimate_quantile f = some (hq.estimate_quantile f) := by
  rw [TimeBasedRingBuffer.estimate_quantile, QuantileEstimator.estimate_quantile]
  by_cases hf : f < 0 ∨ f > 1
  · rw [if_pos hf, if_pos hf]
  · rw [if_neg hf, if_neg hf]
    have hempty : b.windows.isEmpty = false := by
      cases hw : b.windows with
      | nil => exact absurd hw hne
      | cons x xs => rfl
    rw [if_neg (by rw [hempty]; simp)]
    have htv : (b.windows.map QuantileEstimator.val_count).sum = totalVal b.windows := rfl
    rw [htv, if_neg hval1, if_neg (not_lt.mpr hse),
      if_neg (show ¬hq.val_count = 0 by rw [hval]; exact hval1)]
    obtain ⟨out, h1, h2, h3, _h4⟩ := combineWindows_spec b.windows
      (List.replicate (b.end_ - b.start + 1) 0)
      (by intro w hw; rw [List.length_replicate]; exact hwlen w hw)
    rw [h1]
    have hout : out = hq.quantiles := by
      apply List.ext_getElem
      · rw [h2, List.length_replicate, hlen]
      · intro n h5 h6
        have ho := getElem_eq_getD out n h5
        have hh := getElem_eq_getD hq.quantiles n h6
        show out.get ⟨n, h5⟩ = hq.quantiles.get ⟨n, h6⟩
        rw [ho, hh, h3 n, hpt n, getD_replicate_zero]
        omega
    rw [hout]
    dsimp only
    rw [← hval]
    cases hscan : scanQuantiles hq.quantiles
        (quantileIndex f hq.val_count hq.quantiles.length) 0 0 with
    | none => rfl
    | some i =>
      dsimp only
      rw [hstart]

/-- A list of naturals summing to zero is all zeros. -/
theorem sum_zero_eq_replicate : ∀ (l : List Nat), l.sum = 0 →
    l = List.replicate l.length 0
  | [], _ => rfl
  | x :: xs, h => by
    simp only [List.sum_cons] at h
    have hx : x = 0 := by omega
    have hxs := sum_zero_eq_replicate xs (by omega)
    rw [List.length_cons, List.replicate_succ, hx, ← hxs]

/-- An empty well-formed window is exactly the fresh histogram. -/
theorem WInv_empty_eq_mkFresh {s e : Nat} {w : QuantileEstimator}
    (hw : WInv s e w) (h0 : w.val_count = 0) :
    w = QuantileEstimator.mkFresh s e := by
  obtain ⟨h1, h2, h3, h4⟩ := hw
  have hz := sum_zero_eq_replicate w.quantiles (by omega)
  rw [h3] at hz
  cases w with
  | mk vc st en qs =>
    simp only at h0 h1 h2 hz
    rw [QuantileEstimator.mkFresh, h0, h1, h2, hz]

/-- Writing `w2` (obtained by `add_value v` from the window at `cur2`) back
into slot `cur2` keeps the buffer well-formed and corresponds to running
`add_value v` on the merged histogram. -/
theorem add_step_lemma {s e c d : Nat} {b : TimeBasedRingBuffer}
    {hq w2 : QuantileEstimator} {v cur2 ws2 : Nat}
    (hr : RInv s e c d b) (hw : WInv s e hq)
    (hcorr1 : ∀ j, hq.quantiles.getD j 0 = sumAt b.windows j)
    (hcorr2 : hq.val_count = totalVal b.windows)
    (hcur : cur2 < c)
    (hlt : cur2 < b.windows.length)
    (hadd : (b.windows.get ⟨cur2, hlt⟩).add_value v = some w2) :
    ∃ hq2, hq.add_value v = some hq2 ∧
      RInv s e c d { b with
        current := cur2, current_window_start := ws2,
        current_window_initialized := true,
        windows := b.windows.set cur2 w2 } ∧
      WInv s e hq2 ∧
      (∀ j, hq2.quantiles.getD j 0 = sumAt (b.windows.set cur2 w2) j) ∧
      hq2.val_count = totalVal (b.windows.set cur2 w2) := by
  obtain ⟨hb1, hb2, hb3, hb4, hb5, hb6, hb7, hb8, hb9⟩ := hr
  set w := b.windows.get ⟨cur2, hlt⟩ with hwdef
  have hwmem : w ∈ b.windows := by rw [hwdef]; exact List.get_mem _ _ _
  have hwinv : WInv s e w := hb9 w hwmem
  obtain ⟨ha1, ha2, ha3, ha4, ha5, ha6, ha7, ha8⟩ := add_value_spec hadd
  obtain ⟨hq1, hq2e, hq3, hq4⟩ := id hw
  -- the mirror insert succeeds
  have hvr : s ≤ v ∧ v ≤ e := by
    constructor
    · rw [← hwinv.1]; exact ha1
    · rw [← hwinv.2.1]; exact ha2
  have hidx : v - hq.start < hq.quantiles.length := by
    rw [hq1, hq3]
    omega
  have hmk : hq.add_value v = some { hq with
      val_count := hq.val_count + 1,
      quantiles := hq.quantiles.set (v - hq.start)
        (hq.quantiles.get ⟨v - hq.start, hidx⟩ + 1) } := by
    rw [QuantileEstimator.add_value,
      if_neg (by rw [hq1, hq2e]; push_neg; omega), dif_pos hidx]
  refine ⟨_, hmk, ?_, WInv_add_value hw hmk, ?_, ?_⟩
  · -- ring invariant for the updated buffer
    refine ⟨hb1, hb2, hb3, hb4, by simpa using hb5, hcur, hb7, hb8, ?_⟩
    intro w3 hw3
    rcases List.mem_or_eq_of_mem_set hw3 with h | h
    · exact hb9 w3 h
    · rw [h]
      exact WInv_add_value hwinv hadd
  · -- pointwise correspondence
    intro j
    obtain ⟨_, _, _, _, _, _, _, hmk8⟩ := add_value_spec hmk
    have hset := sum_map_set (fun w4 => w4.quantiles.getD j 0) b.windows cur2 w2 hlt
    rw [← hwdef] at hset
    have hw2j := ha8 j
    have hhj := hmk8 j
    show _ = sumAt (b.windows.set cur2 w2) j
    rw [hhj, hcorr1 j]
    have hstarts : hq.start = w.start := by rw [hq1, hwinv.1]
    rw [hstarts]
    simp only [sumAt] at hset ⊢
    omega
  · -- total correspondence
    have hset := sum_map_set QuantileEstimator.val_count b.windows cur2 w2 hlt
    rw [← hwdef] at hset
    show hq.val_count + 1 = totalVal (b.windows.set cur2 w2)
    rw [hcorr2]
    simp only [totalVal] at hset ⊢
    omega

/-- Reading any list element with `getD` inside the bounds (general form). -/
theorem get_eq_getD {α : Type} (l : List α) (n : Nat) (h : n < l.length)
    (d : α) : l.get ⟨n, h⟩ = l.getD n d := by
  induction l generalizing n with
  | nil => simp at h
  | cons x xs ih =>
    cases n with
    | zero => rfl
    | succ n2 => simpa using ih n2 (by simpa using h)

/-- A successful no-eviction `insert` keeps the buffer well-formed and acts
on the merged histogram exactly like one `add_value`. -/
theorem insert_step {s e c d : Nat} {b b2 : TimeBasedRingBuffer}
    {hq : QuantileEstimator} {v t : Nat}
    (hr : RInv s e c d b) (hw : WInv s e hq)
    (hcorr1 : ∀ j, hq.quantiles.getD j 0 = sumAt b.windows j)
    (hcorr2 : hq.val_count = totalVal b.windows)
    (hne : b.noEvictInsert t = true)
    (hins : b.insert v t = some b2) :
    ∃ hq2, hq.add_value v = some hq2 ∧ RInv s e c d b2 ∧ WInv s e hq2 ∧
      (∀ j, hq2.quantiles.getD j 0 = sumAt b2.windows j) ∧
      hq2.val_count = totalVal b2.windows := by
  obtain ⟨hb1, hb2, hb3, hb4, hb5, hb6, hb7, hb8, hb9⟩ := id hr
  rw [TimeBasedRingBuffer.insert] at hins
  rw [TimeBasedRingBuffer.noEvictInsert, advanceLoopNoEvict_eq_step] at hne
  by_cases hguard : b.current_window_initialized = false ∧ b.duration = 0
  · rw [if_pos hguard] at hins
    exact absurd hins (by simp)
  · rw [if_neg hguard, advanceLoop_eq_step] at hins
    by_cases hadv : t > b.initWindowStart t + b.duration
    · -- the loop advances exactly once, resetting an empty window
      rw [if_pos hadv] at hins hne
      have hc0 : ¬(b.capacity = 0) := by omega
      rw [if_neg hc0] at hins
      have hnew : QuantileEstimator.new b.start b.end_ =
          some (QuantileEstimator.mkFresh b.start b.end_) := by
        rw [QuantileEstimator.new, if_neg (by omega)]
      rw [hnew] at hins
      dsimp only at hins
      have hc2lt : (b.current + 1) % b.capacity < b.windows.length := by
        rw [hb5, hb3]
        exact Nat.mod_lt _ (by omega)
      rw [if_pos hc2lt] at hins
      dsimp only at hins
      have hlt2 : (b.current + 1) % b.capacity <
          (b.windows.set ((b.current + 1) % b.capacity)
            (QuantileEstimator.mkFresh b.start b.end_)).length := by
        simpa using hc2lt
      rw [dif_pos hlt2] at hins
      have hget : (b.windows.set ((b.current + 1) % b.capacity)
          (QuantileEstimator.mkFresh b.start b.end_)).get
            ⟨(b.current + 1) % b.capacity, hlt2⟩ =
          QuantileEstimator.mkFresh b.start b.end_ := by
        rw [get_eq_getD _ _ _ (QuantileEstimator.mkFresh b.start b.end_),
          getD_set_same _ _ _ _ hc2lt]
      rw [hget] at hins
      have hval0 : (b.windows.get ⟨(b.current + 1) % b.capacity, hc2lt⟩).val_count
          = 0 := by
        rw [get_eq_getD _ _ _ (QuantileEstimator.mkFresh b.start b.end_)]
        simpa using hne
      have hweq : b.windows.get ⟨(b.current + 1) % b.capacity, hc2lt⟩ =
          QuantileEstimator.mkFresh s e :=
        WInv_empty_eq_mkFresh (hb9 _ (by exact List.get_mem _ _ _)) hval0
      have hfg : QuantileEstimator.mkFresh b.start b.end_ =
          b.windows.get ⟨(b.current + 1) % b.capacity, hc2lt⟩ := by
        rw [hweq, hb1, hb2]
      cases hav : (QuantileEstimator.mkFresh b.start b.end_).add_value v with
      | none => rw [hav] at hins; exact absurd hins (by simp)
      | some w2 =>
        rw [hav] at hins
        dsimp only at hins
        rw [List.set_set] at hins
        have hb2eq := (Option.some.inj hins).symm
        rw [hb2eq]
        have hadd : (b.windows.get ⟨(b.current + 1) % b.capacity, hc2lt⟩).add_value v
            = some w2 := by rw [← hfg]; exact hav
        exact add_step_lemma hr hw hcorr1 hcorr2
          (by rw [← hb3]; exact Nat.mod_lt _ (by omega)) hc2lt hadd
    · -- no advance: the insert lands in the active window
      rw [if_neg hadv] at hins
      dsimp only at hins
      have hltc : b.current < b.windows.length := by omega
      rw [dif_pos hltc] at hins
      cases hav : (b.windows.get ⟨b.current, hltc⟩).add_value v with
      | none => rw [hav] at hins; exact absurd hins (by simp)
      | some w2 =>
        rw [hav] at hins
        dsimp only at hins
        have hb2eq := (Option.some.inj hins).symm
        rw [hb2eq]
        exact add_step_lemma hr hw hcorr1 hcorr2 hb6 hltc hav

/-- A buffer built by `TimeBasedRingBuffer::new` with positive capacity is
well-formed. -/
theorem RInv_new {s e c d : Nat} {b : TimeBasedRingBuffer} (hc : 0 < c)
    (h : TimeBasedRingBuffer.new c d s e = some b) : RInv s e c d b := by
  rw [TimeBasedRingBuffer.new] at h
  by_cases hg : c ≠ 0 ∧ e < s
  · rw [if_pos hg] at h
    exact absurd h (by simp)
  · rw [if_neg hg] at h
    have hse : s ≤ e := by omega
    obtain rfl := (Option.some.inj h).symm
    refine ⟨rfl, rfl, rfl, rfl, by simp, by simpa using hc, hse, hc, ?_⟩
    intro w hw
    rw [List.eq_of_mem_replicate hw]
    exact WInv_mkFresh s e

/-- The fresh mirror histogram corresponds pointwise to the fresh buffer. -/
theorem corr_new {s e c d : Nat} {b : TimeBasedRingBuffer}
    (h : TimeBasedRingBuffer.new c d s e = some b) :
    (∀ j, (QuantileEstimator.mkFresh s e).quantiles.getD j 0 = sumAt b.windows j)
      ∧ (QuantileEstimator.mkFresh s e).val_count = totalVal b.windows := by
  rw [TimeBasedRingBuffer.new] at h
  by_cases hg : c ≠ 0 ∧ e < s
  · rw [if_pos hg] at h
    exact absurd h (by simp)
  · rw [if_neg hg] at h
    obtain rfl := (Option.some.inj h).symm
    constructor
    · intro j
      show (List.replicate (e - s + 1) 0).getD j 0 =
        sumAt (List.replicate c (QuantileEstimator.mkFresh s e)) j
      rw [getD_replicate_zero]
      rw [sumAt, List.map_replicate]
      show 0 = (List.replicate c ((QuantileEstimator.mkFresh s e).quantiles.getD j 0)).sum
      rw [show (QuantileEstimator.mkFresh s e).quantiles.getD j 0 = 0 from
        getD_replicate_zero _ _]
      simp [List.sum_replicate]
    · show 0 = totalVal (List.replicate c (QuantileEstimator.mkFresh s e))
      rw [totalVal, List.map_replicate]
      simp [List.sum_replicate, QuantileEstimator.mkFresh]

/-- A whole no-eviction trace of inserts acts on the merged histogram like
the corresponding sequence of `add_value` calls. -/
theorem trace_corr {s e c d : Nat} : ∀ (trace : List (Nat × Nat))
    (b b2 : TimeBasedRingBuffer) (hq : QuantileEstimator),
    RInv s e c d b → WInv s e hq →
    (∀ j, hq.quantiles.getD j 0 = sumAt b.windows j) →
    hq.val_count = totalVal b.windows →
    noEvictTrace b trace = true →
    insertTrace b trace = some b2 →
    ∃ hq2, addValues hq (trace.map Prod.fst) = some hq2 ∧
      RInv s e c d b2 ∧ WInv s e hq2 ∧
      (∀ j, hq2.quantiles.getD j 0 = sumAt b2.windows j) ∧
      hq2.val_count = totalVal b2.windows ∧
      hq2.val_count = hq.val_count + trace.length
  | [] => by
    intro b b2 hq hr hw h1 h2 _hnet hins
    obtain rfl : b = b2 := Option.some.inj hins
    exact ⟨hq, rfl, hr, hw, h1, h2, by simp⟩
  | (v, t) :: rest => by
    intro b b2 hq hr hw h1 h2 hnet hins
    rw [insertTrace] at hins
    rw [noEvictTrace] at hnet
    cases hbi : b.insert v t with
    | none =>
      rw [hbi] at hins
      exact absurd hins (by simp)
    | some bmid =>
      rw [hbi] at hins hnet
      simp only [Bool.and_eq_true] at hnet
      obtain ⟨hne1, hne2⟩ := hnet
      obtain ⟨hqmid, hadd, hr2, hw2, h1b, h2b⟩ :=
        insert_step hr hw h1 h2 hne1 hbi
      obtain ⟨hq2, g1, g2, g3, g4, g5, g6⟩ :=
        trace_corr rest bmid b2 hqmid hr2 hw2 h1b h2b hne2 hins
      refine ⟨hq2, ?_, g2, g3, g4, g5, ?_⟩
      · rw [List.map_cons, addValues, hadd]
        exact g1
      · obtain ⟨_, _, _, _, _, hv6, _, _⟩ := add_value_spec hadd
        rw [g6, hv6, List.length_cons]
        omega

/-- What a successful `QuantileEstimator::new` returns. -/
theorem new_some {s e : Nat} {w : QuantileEstimator}
    (h : QuantileEstimator.new s e = some w) :
    w = QuantileEstimator.mkFresh s e ∧ s ≤ e := by
  rw [QuantileEstimator.new] at h
  by_cases hse : e < s
  · rw [if_pos hse] at h
    exact absurd h (by simp)
  · rw [if_neg hse] at h
    exact ⟨(Option.some.inj h).symm, by omega⟩

/-- `add_value` preserves `total == sum(counts)` on its own. -/
theorem add_value_sum {w w2 : QuantileEstimator} {v : Nat}
    (hw : w.val_count = w.quantiles.sum) (h : w.add_value v = some w2) :
    w2.val_count = w2.quantiles.sum := by
  rw [QuantileEstimator.add_value] at h
  by_cases hr : v < w.start ∨ v > w.end_
  · rw [if_pos hr] at h
    exact absurd h (by simp)
  · rw [if_neg hr] at h
    by_cases hi : v - w.start < w.quantiles.length
    · rw [dif_pos hi] at h
      obtain rfl : _ = w2 := Option.some.inj h
      show w.val_count + 1 =
        (w.quantiles.set (v - w.start) (w.quantiles.get ⟨v - w.start, hi⟩ + 1)).sum
      have hs := sum_set_getD w.quantiles (v - w.start)
        (w.quantiles.get ⟨v - w.start, hi⟩ + 1) hi
      have hg : w.quantiles.getD (v - w.start) 0 =
          w.quantiles.get ⟨v - w.start, hi⟩ :=
        (get_eq_getD _ _ hi 0).symm
      rw [hg] at hs
      omega
    · rw [dif_neg hi] at h
      exact absurd h (by simp)

theorem rbSkip0_new : TimeBasedRingBuffer.new 3 10 0 5 = some rbSkip0 := by
  decide

theorem rbSkip1_insert : rbSkip0.insert 1 0 = some rbSkip1 := by
  rw [TimeBasedRingBuffer.insert, advanceLoop_eq_step]
  decide

theorem rbSkip2_insert : rbSkip1.insert 2 25 = some rbSkip2 := by
  rw [TimeBasedRingBuffer.insert, advanceLoop_eq_step]
  decide

theorem rbSkip1b_insert : rbSkip1.insert 3 10 = some rbSkip1b := by
  rw [TimeBasedRingBuffer.insert, advanceLoop_eq_step]
  decide

theorem rbEvict0_new : TimeBasedRingBuffer.new 1 10 0 5 = some rbEvict0 := by
  decide

theorem rbEvict1_insert : rbEvict0.insert 1 5 = some rbEvict1 := by
  rw [TimeBasedRingBuffer.insert, advanceLoop_eq_step]
  decide

theorem rbEvict2_insert : rbEvict1.insert 2 11 = some rbEvict2 := by
  rw [TimeBasedRingBuffer.insert, advanceLoop_eq_step]
  decide

theorem rbEvict_trace : insertTrace rbEvict0 [(1, 5), (2, 11)] = some rbEvict2 := by
  simp only [insertTrace, rbEvict1_insert, rbEvict2_insert]

theorem rbW0_new : TimeBasedRingBuffer.new 2 10 0 3 = some rbW0 := by decide

theorem rbW1_insert : rbW0.insert 1 0 = some rbW1 := by
  rw [TimeBasedRingBuffer.insert, advanceLoop_eq_step]
  decide

theorem rbW2_insert : rbW1.insert 2 3 = some rbW2 := by
  rw [TimeBasedRingBuffer.insert, advanceLoop_eq_step]
  decide

theorem rbW_trace : insertTrace rbW0 [(1, 0), (2, 3)] = some rbW2 := by
  simp only [insertTrace, rbW1_insert, rbW2_insert]

theorem rbW_noEvict : noEvictTrace rbW0 [(1, 0), (2, 3)] = true := by
  simp only [noEvictTrace, rbW1_insert, rbW2_insert,
    TimeBasedRingBuffer.noEvictInsert, advanceLoopNoEvict_eq_step]
  decide

theorem rbW_addValues : addValues (QuantileEstimator.mkFresh 0 3) [1, 2] =
    some ⟨2, 0, 3, [0, 1, 1, 0]⟩ := by decide

theorem histTL_addValues :
    addValues (QuantileEstimator.mkFresh 0 1)
      [0, 0, 0, 0, 0, 0, 0, 0, 0, 0, 1] = some histTL := by decide

theorem histTL_est1 : histTL.estimate_quantile 1 = Except.ok 0 := by
  rw [QuantileEstimator.estimate_quantile, if_neg (by norm_num),
    if_neg (by decide), quantileIndex_one (show (1 : Nat) ≤ histTL.val_count
      by decide)]
  decide

/-- At fraction `1` the claimed rank is `total - 1`. -/
theorem specRank_one {t : Nat} (ht : 1 ≤ t) : specRank 1 t = t - 1 := by
  have h1 : rustRound ((1 : ℚ) * (t : ℚ) - 1) = (t : ℤ) - 1 := by
    rw [show (1 : ℚ) * (t : ℚ) - 1 = (((t : ℤ) - 1 : ℤ) : ℚ) by push_cast; ring]
    exact rustRound_intCast _
  rw [specRank, h1]
  omega

theorem histTL_specScan :
    (scanQuantiles histTL.quantiles (specRank 1 histTL.val_count) 0 0).map
      (fun i => histTL.start + i) = some 1 := by
  rw [specRank_one (show (1 : Nat) ≤ histTL.val_count by decide)]
  decide

theorem histMono_est0 : histMono.estimate_quantile 0 = Except.ok 0 := by
  rw [QuantileEstimator.estimate_quantile, if_neg (by norm_num),
    if_neg (by decide), quantileIndex_zero]
  decide

theorem histMono_est1 : histMono.estimate_quantile 1 = Except.ok 3 := by
  rw [QuantileEstimator.estimate_quantile, if_neg (by norm_num),
    if_neg (by decide), quantileIndex_one (show (1 : Nat) ≤ histMono.val_count
      by decide)]
  decide

/-- Claim C1: the spec requires `AddValue` to return a recoverable
`ValueOutOfRange` error for out-of-range values; the code instead executes
`panic!("Value out of range")` (modelled `none`), crashing the process, both
below and above the range.  (In-range inserts do increment as claimed.) -/
theorem claim_C1_add_value_panics :
    QuantileEstimator.new 10 20 = some (QuantileEstimator.mkFresh 10 20) ∧
    (QuantileEstimator.mkFresh 10 20).add_value 5 = none ∧
    (QuantileEstimator.mkFresh 10 20).add_value 25 = none := by
  decide

/-- Claim C2: the spec requires the advance loop to fire while
`timestamp ≥ window_start + duration` and advance `window_start` by exactly
one `duration` per iteration.  The code tests `>` and adds
`max(timestamp, duration)`: after `insert(1,0)` and `insert(2,25)` on a
`capacity 3, duration 10` buffer it reaches `current = 1` and
`window_start = 25` (the claim demands `current = 2`, `window_start = 20`),
and the boundary timestamp `10` stays in the old window (`current = 0`). -/
theorem claim_C2_advance_drift :
    TimeBasedRingBuffer.new 3 10 0 5 = some rbSkip0 ∧
    rbSkip0.insert 1 0 = some rbSkip1 ∧
    rbSkip1.insert 2 25 = some rbSkip2 ∧
    rbSkip2.current = 1 ∧ rbSkip2.current_window_start = 25 ∧
    rbSkip1.insert 3 10 = some rbSkip1b ∧
    rbSkip1b.current = 0 ∧ rbSkip1b.current_window_start = 0 :=
  ⟨rbSkip0_new, rbSkip1_insert, rbSkip2_insert, rfl, rfl, rbSkip1b_insert,
    rfl, rfl⟩

/-- Claim C6: the spec requires construction to fail with recoverable
`InvalidRange` / `InvalidCapacity` / `InvalidDuration` errors.  The code
panics on `end < start` (`none` here, for both constructors) and silently
accepts `capacity == 0` and `duration == 0`. -/
theorem claim_C6_construction_unvalidated :
    QuantileEstimator.new 5 3 = none ∧
    TimeBasedRingBuffer.new 3 10 5 3 = none ∧
    (TimeBasedRingBuffer.new 0 10 0 5).isSome = true ∧
    (TimeBasedRingBuffer.new 3 0 0 5).isSome = true := by
  decide

/-- Claim C3, counterexample: on the histogram over `[0, 1]` with counts
`[10, 1]` (total `11`) and fraction `1`, the code returns `0`, while the
claimed procedure (rank clamped into `[0, total - 1]`, then the same scan)
yields `1`: the code clamps the rank at `counts.len() - 1`, not
`total - 1`. -/
theorem claim_C3_counterexample :
    addValues (QuantileEstimator.mkFresh 0 1)
      [0, 0, 0, 0, 0, 0, 0, 0, 0, 0, 1] = some histTL ∧
    histTL.estimate_quantile 1 = Except.ok 0 ∧
    (scanQuantiles histTL.quantiles (specRank 1 histTL.val_count) 0 0).map
      (fun i => histTL.start + i) = some 1 ∧
    (Except.ok 0 : Except String Nat) ≠ Except.ok 1 :=
  ⟨histTL_addValues, histTL_est1, histTL_specScan, by decide⟩

/-- Claim C3, amended: `EstimateQuantile` computes the rank
`round(fraction * total - 1)` saturated below at `0` (the float→usize cast)
and clamped above at `counts.len() - 1` — not `total - 1` — and returns
`start + i` for the first index `i` whose cumulative count exceeds that
rank. -/
theorem claim_C3_amended (q : QuantileEstimator) (f : ℚ)
    (hwf : q.val_count = q.quantiles.sum) (hv : 1 ≤ q.val_count)
    (h0 : 0 ≤ f) (h1 : f ≤ 1) :
    ∃ i, q.estimate_quantile f = Except.ok (q.start + i) ∧
      (q.quantiles.take (i + 1)).sum >
        quantileIndex f q.val_count q.quantiles.length ∧
      ∀ k < i, (q.quantiles.take (k + 1)).sum ≤
        quantileIndex f q.val_count q.quantiles.length := by
  have hidx : quantileIndex f q.val_count q.quantiles.length < q.val_count :=
    quantileIndex_lt_total h1 hv _
  obtain ⟨r, hr⟩ := scanQuantiles_isSome q.quantiles
    (quantileIndex f q.val_count q.quantiles.length) 0 0 (Nat.zero_le _)
    (by omega)
  obtain ⟨j, hj1, _hj2, hj3, hj4⟩ := scanQuantiles_some_spec _ _ _ _ _ hr
  refine ⟨r, ?_, ?_, ?_⟩
  · rw [QuantileEstimator.estimate_quantile,
      if_neg (by push_neg; exact ⟨h0, h1⟩), if_neg (by omega), hr]
  · have : r = j := by omega
    subst this
    simpa using hj3
  · intro k hk
    have : r = j := by omega
    subst this
    simpa using hj4 k hk

/-- Claim C4: with more observations than buckets the rank clamp at
`counts.len() - 1` breaks the guarantee that fraction `1.0` returns the
maximum observed value: on counts `[10, 1]` over `[0, 1]` the maximum
observed value is `1` (its counter is nonzero) but the code returns `0`. -/
theorem claim_C4_extreme_broken :
    addValues (QuantileEstimator.mkFresh 0 1)
      [0, 0, 0, 0, 0, 0, 0, 0, 0, 0, 1] = some histTL ∧
    histTL.quantiles.getD 1 0 ≠ 0 ∧
    histTL.estimate_quantile 1 = Except.ok 0 ∧
    (0 : Nat) ≠ 0 + 1 :=
  ⟨histTL_addValues, by decide, histTL_est1, by decide⟩

/-- Claim C7: whenever the total count is at least one and the fraction is
in `[0, 1]`, the cumulative scan always finds a bucket, so the
`QuantileNotFound` fall-through (`"No quantile found for the given
fraction"`) is unreachable — for the histogram and for the ring buffer's
merged query alike. -/
theorem claim_C7_scan_never_falls_through :
    (∀ (q : QuantileEstimator) (f : ℚ), q.val_count = q.quantiles.sum →
      1 ≤ q.val_count → 0 ≤ f → f ≤ 1 →
      ∃ r, q.estimate_quantile f = Except.ok r) ∧
    (∀ (b : TimeBasedRingBuffer) (f : ℚ), b.start ≤ b.end_ →
      b.windows ≠ [] →
      (∀ w ∈ b.windows, w.quantiles.length ≤ b.end_ - b.start + 1 ∧
        w.val_count = w.quantiles.sum) →
      1 ≤ (b.windows.map QuantileEstimator.val_count).sum →
      0 ≤ f → f ≤ 1 →
      ∃ r, b.estimate_quantile f = some (Except.ok r)) := by
  constructor
  · intro q f hwf hv h0 h1
    rw [QuantileEstimator.estimate_quantile,
      if_neg (by push_neg; exact ⟨h0, h1⟩), if_neg (by omega)]
    have hidx : quantileIndex f q.val_count q.quantiles.length < q.val_count :=
      quantileIndex_lt_total h1 hv _
    obtain ⟨r, hr⟩ := scanQuantiles_isSome q.quantiles
      (quantileIndex f q.val_count q.quantiles.length) 0 0 (Nat.zero_le _)
      (by omega)
    rw [hr]
    exact ⟨_, rfl⟩
  · intro b f hse hne hws htv h0 h1
    rw [TimeBasedRingBuffer.estimate_quantile,
      if_neg (by push_neg; exact ⟨h0, h1⟩)]
    have hempty : b.windows.isEmpty = false := by
      cases hw : b.windows with
      | nil => exact absurd hw hne
      | cons x xs => rfl
    rw [if_neg (by rw [hempty]; simp), if_neg (by omega),
      if_neg (not_lt.mpr hse)]
    obtain ⟨out, hc1, hc2, _hc3, hc4⟩ := combineWindows_spec b.windows
      (List.replicate (b.end_ - b.start + 1) 0)
      (by intro w hw; rw [List.length_replicate]; exact (hws w hw).1)
    rw [hc1]
    have hmaps : (b.windows.map (fun w => w.quantiles.sum)).sum =
        (b.windows.map QuantileEstimator.val_count).sum := by
      have : b.windows.map (fun w => w.quantiles.sum) =
          b.windows.map QuantileEstimator.val_count :=
        List.map_congr_left (fun w hw => ((hws w hw).2).symm)
      rw [this]
    have hsum : out.sum = (b.windows.map QuantileEstimator.val_count).sum := by
      rw [hc4, hmaps]
      simp [List.sum_replicate]
    have hidx := quantileIndex_lt_total h1 htv out.length
    obtain ⟨r, hr⟩ := scanQuantiles_isSome out
      (quantileIndex f ((b.windows.map QuantileEstimator.val_count).sum)
        out.length) 0 0 (Nat.zero_le _) (by omega)
    dsimp only
    rw [hr]
    exact ⟨_, rfl⟩

/-- Claim C8: for a fixed histogram, whenever two quantile queries both
succeed with fractions `f1 ≤ f2`, the returned values satisfy
`EstimateQuantile(f1) ≤ EstimateQuantile(f2)`. -/
theorem claim_C8_monotone (q : QuantileEstimator) (f1 f2 : ℚ) (r1 r2 : Nat)
    (hf : f1 ≤ f2)
    (h1 : q.estimate_quantile f1 = Except.ok r1)
    (h2 : q.estimate_quantile f2 = Except.ok r2) : r1 ≤ r2 := by
  rw [QuantileEstimator.estimate_quantile] at h1 h2
  by_cases hg1 : f1 < 0 ∨ f1 > 1
  · rw [if_pos hg1] at h1
    exact absurd h1 (by simp)
  · rw [if_neg hg1] at h1
    by_cases hg2 : f2 < 0 ∨ f2 > 1
    · rw [if_pos hg2] at h2
      exact absurd h2 (by simp)
    · rw [if_neg hg2] at h2
      by_cases hv : q.val_count = 0
      · rw [if_pos hv] at h1
        exact absurd h1 (by simp)
      · rw [if_neg hv] at h1 h2
        cases hs1 : scanQuantiles q.quantiles
            (quantileIndex f1 q.val_count q.quantiles.length) 0 0 with
        | none =>
          rw [hs1] at h1
          exact absurd h1 (by simp)
        | some i1 =>
          rw [hs1] at h1
          cases hs2 : scanQuantiles q.quantiles
              (quantileIndex f2 q.val_count q.quantiles.length) 0 0 with
          | none =>
            rw [hs2] at h2
            exact absurd h2 (by simp)
          | some i2 =>
            rw [hs2] at h2
            dsimp only at h1 h2
            have e1 : q.start + i1 = r1 := by
              have := h1
              injection this
            have e2 : q.start + i2 = r2 := by
              have := h2
              injection this
            have hmono := quantileIndex_mono hf q.val_count q.quantiles.length
            have hscan := scanQuantiles_mono hmono hs1 hs2
            omega

/-- Claim C9: `total == sum(counts)` holds at construction and is preserved
by `add_value` (queries mutate nothing in this functional model) and, for
every window of the ring buffer, across `insert` with its window resets. -/
theorem claim_C9_total_invariant :
    (∀ (s e : Nat) (h : QuantileEstimator), QuantileEstimator.new s e = some h →
      h.val_count = h.quantiles.sum) ∧
    (∀ (h h2 : QuantileEstimator) (v : Nat), h.val_count = h.quantiles.sum →
      h.add_value v = some h2 → h2.val_count = h2.quantiles.sum) ∧
    (∀ (b b2 : TimeBasedRingBuffer) (v t : Nat),
      (∀ w ∈ b.windows, w.val_count = w.quantiles.sum) →
      b.insert v t = some b2 →
      ∀ w ∈ b2.windows, w.val_count = w.quantiles.sum) := by
  refine ⟨?_, ?_, ?_⟩
  · intro s e h hn
    obtain ⟨rfl, _⟩ := new_some hn
    simp [QuantileEstimator.mkFresh, List.sum_replicate]
  · intro h h2 v hw ha
    exact add_value_sum hw ha
  · intro b b2 v t hws hins
    rw [TimeBasedRingBuffer.insert] at hins
    by_cases hguard : b.current_window_initialized = false ∧ b.duration = 0
    · rw [if_pos hguard] at hins
      exact absurd hins (by simp)
    · rw [if_neg hguard, advanceLoop_eq_step] at hins
      by_cases hadv : t > b.initWindowStart t + b.duration
      · rw [if_pos hadv] at hins
        by_cases hc0 : b.capacity = 0
        · rw [if_pos hc0] at hins
          exact absurd hins (by simp)
        · rw [if_neg hc0] at hins
          cases hn : QuantileEstimator.new b.start b.end_ with
          | none =>
            rw [hn] at hins
            exact absurd hins (by simp)
          | some fr =>
            rw [hn] at hins
            dsimp only at hins
            obtain ⟨rfl, _⟩ := new_some hn
            by_cases hlt : (b.current + 1) % b.capacity < b.windows.length
            · rw [if_pos hlt] at hins
              dsimp only at hins
              have hmid : ∀ w ∈ b.windows.set ((b.current + 1) % b.capacity)
                  (QuantileEstimator.mkFresh b.start b.end_),
                  w.val_count = w.quantiles.sum := by
                intro w hw
                rcases List.mem_or_eq_of_mem_set hw with hmem | heq
                · exact hws w hmem
                · rw [heq]
                  simp [QuantileEstimator.mkFresh, List.sum_replicate]
              have hlt2 : (b.current + 1) % b.capacity <
                  (b.windows.set ((b.current + 1) % b.capacity)
                    (QuantileEstimator.mkFresh b.start b.end_)).length := by
                simpa using hlt
              rw [dif_pos hlt2] at hins
              cases hav : ((b.windows.set ((b.current + 1) % b.capacity)
                  (QuantileEstimator.mkFresh b.start b.end_)).get
                    ⟨(b.current + 1) % b.capacity, hlt2⟩).add_value v with
              | none =>
                rw [hav] at hins
                exact absurd hins (by simp)
              | some w2 =>
                rw [hav] at hins
                dsimp only at hins
                obtain rfl := Option.some.inj hins
                intro w hw
                rcases List.mem_or_eq_of_mem_set hw with hmem | heq
                · exact hmid w hmem
                · rw [heq]
                  exact add_value_sum
                    (hmid _ (by exact List.get_mem _ _ _)) hav
            · rw [if_neg hlt] at hins
              exact absurd hins (by simp)
      · rw [if_neg hadv] at hins
        dsimp only at hins
        by_cases hlt : b.current < b.windows.length
        · rw [dif_pos hlt] at hins
          cases hav : (b.windows.get ⟨b.current, hlt⟩).add_value v with
          | none =>
            rw [hav] at hins
            exact absurd hins (by simp)
          | some w2 =>
            rw [hav] at hins
            dsimp only at hins
            obtain rfl := Option.some.inj hins
            intro w hw
            rcases List.mem_or_eq_of_mem_set hw with hmem | heq
            · exact hws w hmem
            · rw [heq]
              exact add_value_sum (hws _ (by exact List.get_mem _ _ _)) hav
        · rw [dif_neg hlt] at hins
          exact absurd hins (by simp)

/-- Claim C10: a successful `insert` keeps exactly `capacity` window slots
(replaced in place, never added or removed) and leaves every slot other
than the final active one and the slots stepped through by the advance loop
entirely unchanged. -/
theorem claim_C10_frame (b b2 : TimeBasedRingBuffer) (v t : Nat)
    (hcap : b.windows.length = b.capacity)
    (hins : b.insert v t = some b2) :
    b2.windows.length = b.capacity ∧
    ∀ j, j ≠ b2.current →
      j ∉ advancedIndices b.capacity b.duration b.current
        (b.initWindowStart t) t →
      b2.windows.getD j (QuantileEstimator.mkFresh 0 0) =
        b.windows.getD j (QuantileEstimator.mkFresh 0 0) := by
  rw [TimeBasedRingBuffer.insert] at hins
  rw [advancedIndices_eq_step]
  by_cases hguard : b.current_window_initialized = false ∧ b.duration = 0
  · rw [if_pos hguard] at hins
    exact absurd hins (by simp)
  · rw [if_neg hguard, advanceLoop_eq_step] at hins
    by_cases hadv : t > b.initWindowStart t + b.duration
    · rw [if_pos hadv] at hins
      rw [if_pos hadv]
      by_cases hc0 : b.capacity = 0
      · rw [if_pos hc0] at hins
        exact absurd hins (by simp)
      · rw [if_neg hc0] at hins
        cases hn : QuantileEstimator.new b.start b.end_ with
        | none =>
          rw [hn] at hins
          exact absurd hins (by simp)
        | some fr =>
          rw [hn] at hins
          dsimp only at hins
          by_cases hlt : (b.current + 1) % b.capacity < b.windows.length
          · rw [if_pos hlt] at hins
            dsimp only at hins
            have hlt2 : (b.current + 1) % b.capacity <
                (b.windows.set ((b.current + 1) % b.capacity) fr).length := by
              simpa using hlt
            rw [dif_pos hlt2] at hins
            cases hav : ((b.windows.set ((b.current + 1) % b.capacity)
                fr).get ⟨(b.current + 1) % b.capacity, hlt2⟩).add_value v with
            | none =>
              rw [hav] at hins
              exact absurd hins (by simp)
            | some w2 =>
              rw [hav] at hins
              dsimp only at hins
              rw [List.set_set] at hins
              obtain rfl := Option.some.inj hins
              refine ⟨by simpa using hcap, ?_⟩
              intro j hj1 hj2
              have hj3 : j ≠ (b.current + 1) % b.capacity := by
                intro hc
                exact hj2 (by rw [hc]; exact List.mem_singleton_self _)
              exact getD_set_other _ _ _ _ _ (fun hc => hj3 hc.symm)
          · rw [if_neg hlt] at hins
            exact absurd hins (by simp)
    · rw [if_neg hadv] at hins
      rw [if_neg hadv]
      dsimp only at hins
      by_cases hlt : b.current < b.windows.length
      · rw [dif_pos hlt] at hins
        cases hav : (b.windows.get ⟨b.current, hlt⟩).add_value v with
        | none =>
          rw [hav] at hins
          exact absurd hins (by simp)
        | some w2 =>
          rw [hav] at hins
          dsimp only at hins
          obtain rfl := Option.some.inj hins
          refine ⟨by simpa using hcap, ?_⟩
          intro j hj1 _hj2
          exact getD_set_other _ _ _ _ _ (fun hc => hj1 hc.symm)
      · rw [dif_neg hlt] at hins
        exact absurd hins (by simp)

/-- Claim C5, amended: for any sequence of inserts none of which resets a
window holding data (no eviction of live data — the timestamp-window gloss
of the original claim is insufficient because the window grid is aligned to
`duration` boundaries, not to the first timestamp), the ring buffer's
quantile query coincides, at every fraction, with the query on a single
histogram of the same range fed the same values. -/
theorem claim_C5_merge_correct (c d s e : Nat) (trace : List (Nat × Nat))
    (b0 b : TimeBasedRingBuffer) (hq : QuantileEstimator) (f : ℚ)
    (hc : 0 < c)
    (hnew : TimeBasedRingBuffer.new c d s e = some b0)
    (hins : insertTrace b0 trace = some b)
    (hnoev : noEvictTrace b0 trace = true)
    (hlen : trace ≠ [])
    (hadd : addValues (QuantileEstimator.mkFresh s e) (trace.map Prod.fst) =
      some hq) :
    b.estimate_quantile f = some (hq.estimate_quantile f) := by
  have hr0 := RInv_new hc hnew
  obtain ⟨hcn1, hcn2⟩ := corr_new hnew
  have hw0 := WInv_mkFresh s e
  obtain ⟨hq2, g1, g2, g3, g4, g5, g6⟩ :=
    trace_corr trace b0 b (QuantileEstimator.mkFresh s e) hr0 hw0 hcn1 hcn2
      hnoev hins
  obtain rfl : hq = hq2 := Option.some.inj (hadd.symm.trans g1)
  obtain ⟨k1, k2, _k3, _k4, k5, _k6, k7, _k8, k9⟩ := id g2
  have htot : totalVal b.windows = trace.length := by
    rw [← g5, g6]
    simp [QuantileEstimator.mkFresh]
  apply estimate_merge
  · rw [k1, k2]
    exact k7
  · apply List.length_pos.mp
    omega
  · intro w hw
    rw [k1, k2]
    rw [(k9 w hw).2.2.1]
  · rw [g3.1, k1]
  · rw [g3.2.2.1, k2, k1]
  · exact g4
  · exact g5
  · rw [htot]
    intro hzero
    exact hlen (List.length_eq_zero.mp hzero)

/-- Claim C5, counterexample: a capacity-1, duration-10 buffer receiving
`(1, 5)` then `(2, 11)` — timestamps only `6` apart, within
`capacity × duration = 10` of each other — still evicts the first value,
because the window grid starts at `0`, not at the first timestamp: the ring
answers `2` at fraction `0` while the single histogram answers `1`. -/
theorem claim_C5_counterexample :
    TimeBasedRingBuffer.new 1 10 0 5 = some rbEvict0 ∧
    insertTrace rbEvict0 [(1, 5), (2, 11)] = some rbEvict2 ∧
    11 - 5 ≤ 1 * 10 ∧
    rbEvict2.estimate_quantile 0 = some (Except.ok 2) ∧
    addValues (QuantileEstimator.mkFresh 0 5) [1, 2] =
      some ⟨2, 0, 5, [0, 1, 1, 0, 0, 0]⟩ ∧
    (QuantileEstimator.mk 2 0 5 [0, 1, 1, 0, 0, 0]).estimate_quantile 0 =
      Except.ok 1 ∧
    (some (Except.ok 2) : Option (Except String Nat)) ≠ some (Except.ok 1) := by
  refine ⟨rbEvict0_new, rbEvict_trace, by decide, ?_, by decide, ?_, by decide⟩
  · rw [TimeBasedRingBuffer.estimate_quantile, if_neg (by norm_num)]
    simp only [quantileIndex_zero]
    decide
  · rw [QuantileEstimator.estimate_quantile, if_neg (by norm_num),
      if_neg (by decide), quantileIndex_zero]
    decide

/-- Witness for claim C3 (amended) at a concrete histogram and fraction. -/
theorem claim_C3_amended_witness :
    ∃ i, histMono.estimate_quantile 0 = Except.ok (histMono.start + i) ∧
      (histMono.quantiles.take (i + 1)).sum >
        quantileIndex 0 histMono.val_count histMono.quantiles.length ∧
      ∀ k < i, (histMono.quantiles.take (k + 1)).sum ≤
        quantileIndex 0 histMono.val_count histMono.quantiles.length :=
  claim_C3_amended histMono 0 (by decide) (by decide) (le_refl 0) zero_le_one

/-- Witness for claim C5 (amended) on a concrete no-eviction trace. -/
theorem claim_C5_merge_correct_witness :
    rbW2.estimate_quantile 0 =
      some ((QuantileEstimator.mk 2 0 3 [0, 1, 1, 0]).estimate_quantile 0) :=
  claim_C5_merge_correct 2 10 0 3 [(1, 0), (2, 3)] rbW0 rbW2
    (QuantileEstimator.mk 2 0 3 [0, 1, 1, 0]) 0 (by decide) rbW0_new
    rbW_trace rbW_noEvict (by decide) rbW_addValues

/-- Witness for claim C7 on a concrete histogram and a concrete buffer. -/
theorem claim_C7_witness :
    (∃ r, histMono.estimate_quantile 1 = Except.ok r) ∧
    (∃ r, rbQ7.estimate_quantile 0 = some (Except.ok r)) :=
  ⟨claim_C7_scan_never_falls_through.1 histMono 1 (by decide) (by decide)
      zero_le_one (le_refl 1),
    claim_C7_scan_never_falls_through.2 rbQ7 0 (by decide) (by decide)
      (by decide) (by decide) (le_refl 0) zero_le_one⟩

/-- Witness for claim C8 at fractions `0 ≤ 1` on a concrete histogram. -/
theorem claim_C8_monotone_witness :
    histMono.estimate_quantile 0 = Except.ok 0 ∧
    histMono.estimate_quantile 1 = Except.ok 3 ∧
    (0 : Nat) ≤ 3 :=
  ⟨histMono_est0, histMono_est1,
    claim_C8_monotone histMono 0 1 0 3 zero_le_one histMono_est0 histMono_est1⟩

/-- Witness for claim C9: construction, one `add_value`, and one `insert`
with a window advance all preserve `total == sum(counts)`. -/
theorem claim_C9_total_invariant_witness :
    (QuantileEstimator.mkFresh 0 3).val_count =
      (QuantileEstimator.mkFresh 0 3).quantiles.sum ∧
    (QuantileEstimator.mk 2 0 3 [1, 0, 1, 0]).val_count =
      (QuantileEstimator.mk 2 0 3 [1, 0, 1, 0]).quantiles.sum ∧
    (∀ w ∈ rbEvict2.windows, w.val_count = w.quantiles.sum) :=
  ⟨claim_C9_total_invariant.1 0 3 (QuantileEstimator.mkFresh 0 3) (by decide),
    claim_C9_total_invariant.2.1 (QuantileEstimator.mk 1 0 3 [1, 0, 0, 0])
      (QuantileEstimator.mk 2 0 3 [1, 0, 1, 0]) 2 (by decide) (by decide),
    claim_C9_total_invariant.2.2 rbEvict1 rbEvict2 2 11 (by decide)
      rbEvict2_insert⟩

/-- Witness for claim C10 on a concrete insert that advances the window. -/
theorem claim_C10_frame_witness :
    rbEvict2.windows.length = rbEvict1.capacity ∧
    ∀ j, j ≠ rbEvict2.current →
      j ∉ advancedIndices rbEvict1.capacity rbEvict1.duration rbEvict1.current
        (rbEvict1.initWindowStart 11) 11 →
      rbEvict2.windows.getD j (QuantileEstimator.mkFresh 0 0) =
        rbEvict1.windows.getD j (QuantileEstimator.mkFresh 0 0) :=
  claim_C10_frame rbEvict1 rbEvict2 2 11 (by decide) rbEvict2_insert
